import Mathlib

/-!
Verification development for the promptu prompt-resolution engine.

JavaScript strings are modelled as `List Char`; the JS standard-library
operations the source uses (`split` on a character class, `includes`,
`startsWith`, `endsWith`, first-occurrence `replace`, `parseInt`) are
embedded below, and the source functions (`parsePrompt`, `getPromptName`,
`addDefaultExtension` from promptParser.ts, `isVersionSufficient` and the
`installServers` batch from mcpInstaller.ts, the HTTP/git fallback from
promptFetcher.ts, and `getPrompt` from mcpClient.ts) are translated on top
of them.  External collaborators (the HTTP client, the package-manager
query, the user-confirmation dialog, the MCP protocol client, JSON.parse
of the argument payload) are modelled as environment inputs, mirroring the
control flow the source wraps around them.
-/

instance {ε α : Type} [DecidableEq ε] [DecidableEq α] : DecidableEq (Except ε α) := fun x y =>
  match x, y with
  | Except.ok a, Except.ok b =>
    if h : a = b then isTrue (by rw [h]) else isFalse (by intro hh; injection hh; contradiction)
  | Except.error a, Except.error b =>
    if h : a = b then isTrue (by rw [h]) else isFalse (by intro hh; injection hh; contradiction)
  | Except.ok _, Except.error _ => isFalse (by intro h; cases h)
  | Except.error _, Except.ok _ => isFalse (by intro h; cases h)

/-- JS `s.split(sep)` for a single-character class: splits on every char
satisfying `p`, keeping empty segments (always returns at least one). -/
def splitChars (p : Char → Bool) : List Char → List (List Char)
  | [] => [[]]
  | c :: cs =>
    if p c then [] :: splitChars p cs
    else
      match splitChars p cs with
      | [] => [[c]]
      | h :: t => (c :: h) :: t

/-- JS `hay.includes(pat)` for a string needle. -/
def containsSub (pat : List Char) : List Char → Bool
  | [] => pat.isEmpty
  | c :: cs => pat.isPrefixOf (c :: cs) || containsSub pat cs

/-- JS `s.replace(pat, '')` with a string pattern: removes only the FIRST
occurrence of `pat` (JS `String.replace` with a string argument replaces a
single, leftmost occurrence). -/
def replaceFirst (pat : List Char) : List Char → List Char
  | [] => []
  | c :: cs =>
    if pat.isPrefixOf (c :: cs) then (c :: cs).drop pat.length
    else c :: replaceFirst pat cs

/-- JS `s.replace(/\.[^.]*$/, '')`: the regex matches the last `.` of the
string together with everything after it (which contains no further dot),
so the replacement drops the last extension; no dot means no match. -/
def stripLastExt (s : List Char) : List Char :=
  if s.contains '.' then ((s.reverse.dropWhile (fun c => !(c == '.'))).drop 1).reverse
  else s

/-- Approximation of the whitespace JS `parseInt` skips. -/
def isJsSpace (c : Char) : Bool :=
  c == ' ' || c == '\t' || c == '\n' || c == '\r'

def digitsToNat : List Char → Nat → Nat
  | [], acc => acc
  | c :: cs, acc => digitsToNat cs (acc * 10 + (c.toNat - '0'.toNat))

/-- JS `parseInt(s, 10)` with the source's `isNaN(num) ? 0 : num` guard:
skip leading whitespace, optional sign, read leading decimal digits;
no digits gives NaN, mapped to 0. -/
def jsParseIntOr0 (s : List Char) : Int :=
  let t := s.dropWhile isJsSpace
  match t with
  | '-' :: r =>
    let ds := r.takeWhile Char.isDigit
    if ds.isEmpty then 0 else -(digitsToNat ds 0 : Int)
  | '+' :: r =>
    let ds := r.takeWhile Char.isDigit
    if ds.isEmpty then 0 else (digitsToNat ds 0 : Int)
  | _ =>
    let ds := t.takeWhile Char.isDigit
    if ds.isEmpty then 0 else (digitsToNat ds 0 : Int)

/-- JS `rest.join(sep)`. -/
def joinWith (sep : Char) (l : List (List Char)) : List Char :=
  match l with
  | [] => []
  | [x] => x
  | x :: xs => x ++ sep :: joinWith sep xs

/-- JS truthiness of an optional string (`undefined`, `null` and `''` are
falsy). -/
def jsTruthyOpt (o : Option (List Char)) : Bool :=
  match o with
  | none => false
  | some s => !s.isEmpty

/- ## promptParser.ts -/

/-- The `ParsedPrompt` tagged union from types.ts (one variant per
`type` tag, with that variant's fields). -/
inductive ParsedPrompt where
  | mcp (name : List Char)
  | url (name url : List Char)
  | local (name localPath : List Char)
  | ado (name org project repo filePath : List Char)
  | github (name owner repo filePath : List Char)
  | installed (name : List Char)
deriving DecidableEq, Repr

/-- `getPromptName` (promptParser.ts:102): split the original address on
`/`, `\` and `:`; take the last segment; if it ends with `.prompt.md`
remove the first occurrence of `.prompt.md` (JS `replace` with a string
pattern); otherwise strip the last single extension. -/
def getPromptName (prompt : List Char) : List Char :=
  let parts := splitChars (fun c => c == '/' || c == '\\' || c == ':') prompt
  let lastPart := parts.getLastD []
  if List.isSuffixOf ".prompt.md".data lastPart then
    replaceFirst ".prompt.md".data lastPart
  else
    stripLastExt lastPart

/-- The fixed recognized-suffix list of `addDefaultExtension`
(promptParser.ts:122). -/
def recognizedExtensions : List (List Char) :=
  [".prompt.md".data, ".md".data, ".txt".data, ".json".data]

/-- `addDefaultExtension` (promptParser.ts:121): leave the path unchanged
when it already ends in a recognized suffix, else append `.prompt.md`. -/
def addDefaultExtension (path : List Char) : List Char :=
  let hasExtension := recognizedExtensions.any (fun ext => List.isSuffixOf ext path)
  if hasExtension then path else path ++ ".prompt.md".data

/-- The drive-letter test `/^[a-zA-Z]:\\/` of promptParser.ts:37. -/
def startsWithDriveLetter (s : List Char) : Bool :=
  match s with
  | c :: ':' :: '\\' :: _ =>
    ('a' ≤ c && c ≤ 'z') || ('A' ≤ c && c ≤ 'Z')
  | _ => false

/-- `parsePrompt` (promptParser.ts:13): classify an address string into a
`ParsedPrompt`, or fail with the source's error message. -/
def parsePrompt (prompt : List Char) : Except (List Char) ParsedPrompt :=
  if List.isPrefixOf "mcp.".data prompt then
    let mcpParts := splitChars (fun c => c == '.') prompt
    if mcpParts.length ≠ 3 then
      Except.error "Invalid MCP prompt format. Expected: mcp.ServerName.PromptName".data
    else
      Except.ok (ParsedPrompt.mcp prompt)
  else if List.isPrefixOf "http://".data prompt || List.isPrefixOf "https://".data prompt then
    Except.ok (ParsedPrompt.url (getPromptName prompt) (addDefaultExtension prompt))
  else if startsWithDriveLetter prompt || List.isPrefixOf "/".data prompt then
    Except.ok (ParsedPrompt.local (getPromptName prompt) (addDefaultExtension prompt))
  else if prompt.contains ':' then
    let name := getPromptName prompt
    let prompt1 := addDefaultExtension prompt
    match splitChars (fun c => c == ':') prompt1 with
    | [] => Except.error "Invalid format. Use ado:org/project/repo/path or gh:owner/repo/path".data
    | platform :: rest =>
      if rest.isEmpty then
        Except.error "Invalid format. Use ado:org/project/repo/path or gh:owner/repo/path".data
      else
        let fullPath := joinWith ':' rest
        if platform = "ado".data then
          let parts := splitChars (fun c => c == '/') fullPath
          if parts.length < 4 then
            Except.error "Invalid ADO format. Use ado:org/project/repo/path".data
          else
            match parts with
            | org :: project :: repo :: pathParts =>
              Except.ok (ParsedPrompt.ado name org project repo (joinWith '/' pathParts))
            | _ => Except.error "Invalid ADO format. Use ado:org/project/repo/path".data
        else if platform = "gh".data then
          let parts := splitChars (fun c => c == '/') fullPath
          if parts.length < 3 then
            Except.error "Invalid GitHub format. Use gh:owner/repo/path".data
          else
            match parts with
            | owner :: repo :: pathParts =>
              Except.ok (ParsedPrompt.github name owner repo (joinWith '/' pathParts))
            | _ => Except.error "Invalid GitHub format. Use gh:owner/repo/path".data
        else
          Except.error ("Unsupported platform: ".data ++ platform)
  else
    Except.ok (ParsedPrompt.installed prompt)

/- ## mcpInstaller.ts: version comparison -/

/-- `installed.split('-')[0].split('+')[0]` (mcpInstaller.ts:193): drop
everything from the first `-` on, then from the first `+` on. -/
def cleanVersion (s : List Char) : List Char :=
  (s.takeWhile (fun c => !(c == '-'))).takeWhile (fun c => !(c == '+'))

/-- The cleaned dot-segments of a version string, each parsed with
`parseInt` and `isNaN ? 0` (mcpInstaller.ts:197-204). -/
def versionParts (s : List Char) : List Int :=
  (splitChars (fun c => c == '.') (cleanVersion s)).map jsParseIntOr0

/-- Right-pad a segment list with zeros to length `n`
(mcpInstaller.ts:207-213). -/
def padZeros (l : List Int) (n : Nat) : List Int :=
  l ++ List.replicate (n - l.length) 0

/-- The segment-by-segment loop of mcpInstaller.ts:216-223: first strict
inequality decides; equal lists fall through (`.eq`).  Both arguments
always have the same length at the call site. -/
def compareCore : List Int → List Int → Ordering
  | [], [] => Ordering.eq
  | [], _ :: _ => Ordering.eq
  | _ :: _, [] => Ordering.eq
  | a :: as, b :: bs =>
    if b < a then Ordering.gt
    else if a < b then Ordering.lt
    else compareCore as bs

/-- `McpInstaller.isVersionSufficient` (mcpInstaller.ts:191-237). -/
def isVersionSufficient (installed required : List Char) : Bool :=
  let installedParts := versionParts installed
  let requiredParts := versionParts required
  let maxLength := max installedParts.length requiredParts.length
  match compareCore (padZeros installedParts maxLength) (padZeros requiredParts maxLength) with
  | Ordering.gt => true
  | Ordering.lt => false
  | Ordering.eq =>
    let installedHasPrerelease := installed.contains '-'
    let requiredHasPrerelease := required.contains '-'
    if !installedHasPrerelease && requiredHasPrerelease then true
    else if installedHasPrerelease && !requiredHasPrerelease then false
    else true

/- Zero-extended lexicographic comparison: the canonical form of the
padded segment loop, used to prove that right-padding with zeros does not
change the comparison. -/

def cmpZRight : List Int → Ordering
  | [] => Ordering.eq
  | b :: bs => if b < 0 then Ordering.gt else if 0 < b then Ordering.lt else cmpZRight bs

def cmpZLeft : List Int → Ordering
  | [] => Ordering.eq
  | a :: as => if 0 < a then Ordering.gt else if a < 0 then Ordering.lt else cmpZLeft as

def cmpZ : List Int → List Int → Ordering
  | [], bs => cmpZRight bs
  | a :: as, [] => if 0 < a then Ordering.gt else if a < 0 then Ordering.lt else cmpZLeft as
  | a :: as, b :: bs => if b < a then Ordering.gt else if a < b then Ordering.lt else cmpZ as bs

/- ## mcpInstaller.ts: the provisioning batch -/

/-- A `servers` entry of mcp.json as written by `addServerToConfig`
(mcpInstaller.ts:172-183): the object spread keeps `command`/`url` only
when truthy (non-empty) and `args`/`env` only when present. -/
structure ServerEntry where
  type : List Char
  command : Option (List Char)
  args : Option (List (List Char))
  url : Option (List Char)
  env : Option (List (List Char × List Char))
deriving DecidableEq, Repr

/-- The `McpConfiguration` shape of mcp.json: `servers` is a JS object
(modelled as an insertion-ordered association list) plus `inputs`. -/
structure McpConfiguration where
  servers : List (List Char × ServerEntry)
  inputs : List (List Char)
deriving DecidableEq, Repr

/-- `McpServerConfig` from types.ts. -/
structure McpServerConfig where
  name : List Char
  type : List Char
  command : Option (List Char)
  args : Option (List (List Char))
  url : Option (List Char)
  env : Option (List (List Char × List Char))
  nugetPackage : Option (List Char)
  version : Option (List Char)
  nugetFeed : Option (List Char)
deriving DecidableEq, Repr

/-- `InstallResult` (mcpInstaller.ts:11-14). -/
structure InstallResult where
  cancelled : Bool
  configModified : Bool
deriving DecidableEq, Repr

/-- JS object property assignment `config.servers[name] = v`: replace the
value in place if the key exists, otherwise append. -/
def setAssoc : List (List Char × ServerEntry) → List Char → ServerEntry →
    List (List Char × ServerEntry)
  | [], k, v => [(k, v)]
  | (k0, v0) :: rest, k, v =>
    if k0 = k then (k, v) :: rest else (k0, v0) :: setAssoc rest k v

/-- JS `server.name in config.servers`. -/
def hasServer (config : McpConfiguration) (name : List Char) : Bool :=
  config.servers.any (fun kv => kv.1 = name)

/-- `addServerToConfig` (mcpInstaller.ts:172-183). -/
def addServerToConfig (config : McpConfiguration) (server : McpServerConfig) :
    McpConfiguration :=
  { config with
    servers := setAssoc config.servers server.name
      { type := server.type
        command := if jsTruthyOpt server.command then server.command else none
        args := server.args
        url := if jsTruthyOpt server.url then server.url else none
        env := server.env } }

/-- Environment inputs for one descriptor's installation step: the user's
answer to `showMcpInstallationConfirmation`, the version reported by the
`dotnet tool list` query (`null` when not installed), and whether
`dotnet tool install` exits 0. -/
structure StepEnv where
  confirm : Bool
  installedVersion : Option (List Char)
  installOk : Bool
deriving DecidableEq, Repr

/-- `installNuGetForServer` (mcpInstaller.ts:108-141). -/
def installNuGetForServer (server : McpServerConfig) (env : StepEnv)
    (config : McpConfiguration) :
    Except (List Char) (InstallResult × McpConfiguration) :=
  if !(jsTruthyOpt server.nugetPackage) then
    Except.error "NuGet server configuration requires nugetPackage property".data
  else
    let alreadySufficient : Bool :=
      match server.version with
      | none => false
      | some req =>
        if req.isEmpty then false
        else
          match env.installedVersion with
          | none => false
          | some inst => !inst.isEmpty && isVersionSufficient inst req
    if alreadySufficient then
      Except.ok ({ cancelled := false, configModified := false }, config)
    else if !env.confirm then
      Except.ok ({ cancelled := true, configModified := false }, config)
    else if !env.installOk then
      Except.error "dotnet tool install failed".data
    else
      Except.ok ({ cancelled := false, configModified := true },
        addServerToConfig config server)

/-- `installServerConfig` (mcpInstaller.ts:149-165). -/
def installServerConfig (server : McpServerConfig) (env : StepEnv)
    (config : McpConfiguration) :
    Except (List Char) (InstallResult × McpConfiguration) :=
  if hasServer config server.name then
    Except.ok ({ cancelled := false, configModified := false }, config)
  else if !env.confirm then
    Except.ok ({ cancelled := true, configModified := false }, config)
  else
    Except.ok ({ cancelled := false, configModified := true },
      addServerToConfig config server)

/-- The per-descriptor dispatch of mcpInstaller.ts:73-77
(`if (server.nugetPackage)` is a JS truthiness test). -/
def installStep (server : McpServerConfig) (env : StepEnv)
    (config : McpConfiguration) :
    Except (List Char) (InstallResult × McpConfiguration) :=
  if jsTruthyOpt server.nugetPackage then installNuGetForServer server env config
  else installServerConfig server env config

inductive BatchStatus where
  | completed
  | cancelled
  | failed
deriving DecidableEq, Repr

/-- Observable outcome of `installServers`: its status, the descriptors it
examined (in order), the descriptors left untouched, the argument of the
single `writeMcpConfig` call when one happens, and the per-step results. -/
structure BatchOutcome where
  status : BatchStatus
  processed : List McpServerConfig
  remaining : List McpServerConfig
  written : Option McpConfiguration
  results : List InstallResult
deriving DecidableEq, Repr

/-- The descriptor loop of `installServers` (mcpInstaller.ts:69-99),
threading the in-memory config and the `needsConfigWrite` flag: a
cancelled step returns `false` immediately (no write); a step error is
rethrown (no write); after the loop the config is written once iff
`needsConfigWrite`. -/
def installServersGo (batch : List (McpServerConfig × StepEnv))
    (config : McpConfiguration) (needsConfigWrite : Bool) : BatchOutcome :=
  match batch with
  | [] =>
    { status := BatchStatus.completed, processed := [], remaining := [],
      written := if needsConfigWrite then some config else none, results := [] }
  | (server, env) :: rest =>
    match installStep server env config with
    | Except.error _ =>
      { status := BatchStatus.failed, processed := [server],
        remaining := rest.map Prod.fst, written := none, results := [] }
    | Except.ok (result, config1) =>
      if result.cancelled then
        { status := BatchStatus.cancelled, processed := [server],
          remaining := rest.map Prod.fst, written := none, results := [result] }
      else
        let o := installServersGo rest config1 (needsConfigWrite || result.configModified)
        { o with processed := server :: o.processed, results := result :: o.results }

/-- `installServers` (mcpInstaller.ts:62-100): read the registry (absent
file means the empty config), run the batch with `needsConfigWrite`
initially false. -/
def installServers (batch : List (McpServerConfig × StepEnv))
    (diskConfig : Option McpConfiguration) : BatchOutcome :=
  installServersGo batch (diskConfig.getD { servers := [], inputs := [] }) false

/-- The on-disk registry after a batch: unchanged unless `writeMcpConfig`
ran, in which case the file holds exactly the written config. -/
def diskAfterBatch (diskConfig : Option McpConfiguration)
    (batch : List (McpServerConfig × StepEnv)) : Option McpConfiguration :=
  match (installServers batch diskConfig).written with
  | some c => some c
  | none => diskConfig

/- ## promptFetcher.ts: HTTP fetch and the clone fallback -/

/-- Outcome of the raw-URL HTTP request as seen by `fetchViaHttp`: either
the fetch call itself rejects (network error, or the abort-controller
timeout), or a response arrives with its `ok` flag, status, status text
and body text. -/
inductive HttpAttempt where
  | failed (msg : List Char)
  | response (ok : Bool) (status : Nat) (statusText : List Char) (body : List Char)
deriving DecidableEq, Repr

/-- The HTML-interstitial detection of promptFetcher.ts:214:
`content.includes('<html') || content.includes('Sign in to your account')`. -/
def isSignInHtml (body : List Char) : Bool :=
  containsSub "<html".data body || containsSub "Sign in to your account".data body

/-- `PromptFetcher.fetchViaHttp` (promptFetcher.ts:197-227): a rejected
fetch propagates; a non-ok status throws `HTTP <status>: <statusText>`; a
body detected as an HTML sign-in page throws; otherwise the body text is
returned. -/
def fetchViaHttp (attempt : HttpAttempt) : Except (List Char) (List Char) :=
  match attempt with
  | HttpAttempt.failed msg => Except.error msg
  | HttpAttempt.response ok status statusText body =>
    if !ok then
      Except.error ("HTTP ".data ++ (Nat.repr status).data ++ ": ".data ++ statusText)
    else if isSignInHtml body then
      Except.error "Authentication failed - received sign-in page".data
    else
      Except.ok body

/-- Which tier produced the stored content. -/
inductive FetchTier where
  | http
  | git
deriving DecidableEq, Repr

/-- Environment of one remote-repo retrieval: the credential broker's
answer (only consulted for ADO addresses), the raw-URL HTTP attempt, and
the outcome of the git-clone tier (`fetchViaGitToFile`: the content of
the target file inside the clone, or the clone/copy error). -/
structure RemoteFetchEnv where
  adoAuth : Except (List Char) Unit
  tier1 : HttpAttempt
  tier2 : Except (List Char) (List Char)
deriving Repr

/-- The try-block of `fetchWithFallbackStrategyToFile`
(promptFetcher.ts:174-182): obtain auth headers when the address is ADO
(a failure there is an error of the try block), then run the raw-URL
fetch. -/
def tier1Result (isAdo : Bool) (env : RemoteFetchEnv) : Except (List Char) (List Char) :=
  match (if isAdo then env.adoAuth else Except.ok ()) with
  | Except.error e => Except.error e
  | Except.ok _ => fetchViaHttp env.tier1

/-- `fetchWithFallbackStrategyToFile` (promptFetcher.ts:170-188): the try
block obtains auth headers for ADO, runs the raw-URL fetch and stores its
body; ANY error in it (auth, fetch rejection, bad status, sign-in HTML)
falls through to the git-clone tier, whose own result is final.  The
value is the stored content tagged by the tier that produced it. -/
def fetchWithFallbackStrategy (isAdo : Bool) (env : RemoteFetchEnv) :
    Except (List Char) (FetchTier × List Char) :=
  match tier1Result isAdo env with
  | Except.ok content => Except.ok (FetchTier.http, content)
  | Except.error _ =>
    match env.tier2 with
    | Except.ok content => Except.ok (FetchTier.git, content)
    | Except.error e => Except.error e

/- ## mcpClient.ts: the render session -/

/-- A content block of an MCP prompt message (`message.content?.type`). -/
inductive PromptContent where
  | text (t : List Char)
  | other
deriving DecidableEq, Repr

structure PromptMessage where
  content : Option PromptContent
deriving DecidableEq, Repr

/-- The `prompts/get` response shape used by `getPrompt`. -/
structure GetPromptResponse where
  messages : List PromptMessage
deriving DecidableEq, Repr

/-- Result of `JSON.parse` on the input payload (platform JSON parsing is
an external collaborator): a parse error, a non-object value (array or
primitive), or an object. -/
inductive ParsedJson where
  | parseError (msg : List Char)
  | nonObject
  | object
deriving DecidableEq, Repr

/-- Environment of one `getPrompt` call: the parse of the input payload,
the outcome of `createClient` (transport creation plus `client.connect`),
the `prompts/get` response, and the outcome of `client.close`. -/
structure SessionEnv where
  inputJson : ParsedJson
  connect : Except (List Char) Unit
  render : Except (List Char) GetPromptResponse
  closeResult : Except (List Char) Unit
deriving Repr

/-- Observable outcome of `McpClient.getPrompt`: the returned text or the
raised error, whether a client session was successfully opened, whether
`client.close` was invoked, and whether a close error was logged (the
finally block catches it instead of propagating). -/
structure GetPromptOutcome where
  result : Except (List Char) (List Char)
  sessionOpened : Bool
  closeCalled : Bool
  closeErrorLogged : Bool
deriving DecidableEq, Repr

/-- The catch-wrapping of mcpClient.ts:200-203. -/
def wrapRenderError (promptName serverName msg : List Char) : List Char :=
  "Failed to fetch prompt '".data ++ promptName ++ "' from MCP server '".data ++
    serverName ++ "': ".data ++ msg

/-- `McpClient.getPrompt` (mcpClient.ts:138-212): parse the
`mcp.ServerName.PromptName` name, look the server up among the supplied
configurations, parse the input arguments, create and connect a client,
issue `prompts/get` inside a try whose catch wraps any error and whose
finally always closes the client, swallowing (logging) close errors. -/
def getPromptModel (mcpPromptName input : List Char)
    (mcpServers : List McpServerConfig) (env : SessionEnv) : GetPromptOutcome :=
  let mcpParts := splitChars (fun c => c == '.') mcpPromptName
  match mcpParts with
  | [p0, serverName, promptName] =>
    if p0 ≠ "mcp".data then
      { result := Except.error "Invalid MCP prompt format. Expected: mcp.ServerName.PromptName".data,
        sessionOpened := false, closeCalled := false, closeErrorLogged := false }
    else
      match mcpServers.find? (fun server => server.name = serverName) with
      | none =>
        { result := Except.error ("MCP server '".data ++ serverName ++
            "' not found in provided configuration. The MCP server must be specified in the URI.".data),
          sessionOpened := false, closeCalled := false, closeErrorLogged := false }
      | some _ =>
        let inputOk : Except (List Char) Unit :=
          if input.isEmpty then Except.ok ()
          else
            match env.inputJson with
            | ParsedJson.object => Except.ok ()
            | ParsedJson.nonObject =>
              Except.error ("MCP prompt input must be valid JSON object format. Error: ".data ++
                "MCP prompt input must be a JSON object with argument names and values".data)
            | ParsedJson.parseError msg =>
              Except.error ("MCP prompt input must be valid JSON object format. Error: ".data ++ msg)
        match inputOk with
        | Except.error e =>
          { result := Except.error e, sessionOpened := false,
            closeCalled := false, closeErrorLogged := false }
        | Except.ok _ =>
          match env.connect with
          | Except.error e =>
            { result := Except.error ("Failed to connect to MCP server '".data ++
                serverName ++ "': ".data ++ e),
              sessionOpened := false, closeCalled := false, closeErrorLogged := false }
          | Except.ok _ =>
            let tryResult : Except (List Char) (List Char) :=
              match env.render with
              | Except.error msg =>
                Except.error (wrapRenderError promptName serverName msg)
              | Except.ok response =>
                match response.messages with
                | [] =>
                  Except.error (wrapRenderError promptName serverName
                    "No text content found in MCP prompt response".data)
                | message :: _ =>
                  match message.content with
                  | some (PromptContent.text t) => Except.ok t
                  | _ =>
                    Except.error (wrapRenderError promptName serverName
                      "No text content found in MCP prompt response".data)
            { result := tryResult, sessionOpened := true, closeCalled := true,
              closeErrorLogged :=
                match env.closeResult with
                | Except.error _ => true
                | Except.ok _ => false }
  | _ =>
    { result := Except.error "Invalid MCP prompt format. Expected: mcp.ServerName.PromptName".data,
      sessionOpened := false, closeCalled := false, closeErrorLogged := false }

/- ## Derived definitions used by the theorem statements -/

/-- The last segment of an address after splitting on `/`, `\` and `:`
(the `lastPart` of `getPromptName`). -/
def lastSegment (prompt : List Char) : List Char :=
  (splitChars (fun c => c == '/' || c == '\\' || c == ':') prompt).getLastD []

/-- Drop the last `n` characters. -/
def dropLastN (l : List Char) (n : Nat) : List Char :=
  l.take (l.length - n)

/-- Number of (possibly overlapping) occurrence positions of `pat`. -/
def countSub (pat : List Char) : List Char → Nat
  | [] => 0
  | c :: cs => (if pat.isPrefixOf (c :: cs) then 1 else 0) + countSub pat cs

/-- The spec's reading of canonical-name derivation: when the last segment
ends with the compound suffix `.prompt.md`, strip exactly that TRAILING
suffix (compare with `getPromptName`, which removes the first
occurrence). -/
def getPromptNameSpec (prompt : List Char) : List Char :=
  let lastPart := lastSegment prompt
  if List.isSuffixOf ".prompt.md".data lastPart then
    dropLastN lastPart ".prompt.md".data.length
  else
    stripLastExt lastPart

/- Concrete inputs used by the witnesses. -/

/-- A tier-1 response whose body is an HTML sign-in page, with a clone
tier that succeeds. -/
def cEnvHtml : RemoteFetchEnv :=
  { adoAuth := Except.ok ()
    tier1 := HttpAttempt.response true 200 "OK".data
      "<html><body>Sign in to your account</body></html>".data
    tier2 := Except.ok "actual prompt content".data }

def cDescA : McpServerConfig :=
  { name := "alpha".data, type := "http".data, command := none, args := none
    url := some "https://example.test/mcp".data, env := none
    nugetPackage := none, version := none, nugetFeed := none }

def cDescB : McpServerConfig :=
  { name := "beta".data, type := "stdio".data, command := some "run-beta".data, args := none
    url := none, env := none, nugetPackage := none, version := none, nugetFeed := none }

def cStepDecline : StepEnv :=
  { confirm := false, installedVersion := none, installOk := true }

def cStepAccept : StepEnv :=
  { confirm := true, installedVersion := none, installOk := true }

/-- A batch whose first descriptor requires a confirmation that is
declined. -/
def cBatchDecline : List (McpServerConfig × StepEnv) :=
  [(cDescA, cStepDecline), (cDescB, cStepAccept)]

def cEntryA : ServerEntry :=
  { type := "http".data, command := none, args := none
    url := some "https://example.test/mcp".data, env := none }

/-- A registry that already has an entry for `alpha`. -/
def cDiskWithA : McpConfiguration :=
  { servers := [("alpha".data, cEntryA)], inputs := [] }

/-- A batch in which the only descriptor is already configured. -/
def cBatchSkip : List (McpServerConfig × StepEnv) :=
  [(cDescA, cStepAccept)]

/-- A session whose connect and render succeed but whose close fails. -/
def cSessionEnv : SessionEnv :=
  { inputJson := ParsedJson.object
    connect := Except.ok ()
    render := Except.ok { messages := [{ content := some (PromptContent.text "hello".data) }] }
    closeResult := Except.error "socket already closed".data }

/- ## Helper lemmas -/

theorem splitChars_ne_nil (p : Char → Bool) (l : List Char) : splitChars p l ≠ [] := by
  cases l with
  | nil => simp [splitChars]
  | cons c cs =>
    simp only [splitChars]
    split
    · simp
    · split <;> simp

theorem splitChars_sep {p : Char → Bool} {c : Char} (cs : List Char) (h : p c = true) :
    splitChars p (c :: cs) = [] :: splitChars p cs := by
  simp [splitChars, h]

theorem splitChars_cons_head {p : Char → Bool} {c : Char} {cs a : List Char}
    {t : List (List Char)} (h : p c = false) (hs : splitChars p cs = a :: t) :
    splitChars p (c :: cs) = (c :: a) :: t := by
  simp [splitChars, h, hs]

theorem splitChars_exists_cons (p : Char → Bool) (l : List Char) :
    ∃ a t, splitChars p l = a :: t := by
  cases h : splitChars p l with
  | nil => exact absurd h (splitChars_ne_nil p l)
  | cons a t => exact ⟨a, t, rfl⟩

theorem splitChars_append_dot0 (l : List Char) :
    splitChars (fun c => c == '.') (l ++ ['.', '0']) =
      splitChars (fun c => c == '.') l ++ [['0']] := by
  induction l with
  | nil => decide
  | cons c cs ih =>
    cases hc : (c == '.') with
    | true =>
      rw [List.cons_append, splitChars_sep (p := fun x => x == '.') _ hc, ih,
        splitChars_sep (p := fun x => x == '.') _ hc]
      rfl
    | false =>
      obtain ⟨a, t, hs⟩ := splitChars_exists_cons (fun c => c == '.') cs
      have hs2 : splitChars (fun c => c == '.') (cs ++ ['.', '0']) = a :: (t ++ [['0']]) := by
        rw [ih, hs]; rfl
      rw [List.cons_append, splitChars_cons_head (p := fun x => x == '.') hc hs2,
        splitChars_cons_head (p := fun x => x == '.') hc hs]
      rfl

theorem splitChars_mcp_dot (r : List Char) :
    splitChars (fun c => c == '.') ("mcp.".data ++ r) =
      "mcp".data :: splitChars (fun c => c == '.') r := by
  obtain ⟨a, t, hs⟩ := splitChars_exists_cons (fun c => c == '.') r
  have h1 : splitChars (fun c => c == '.') ('.' :: r) = [] :: a :: t := by
    rw [splitChars_sep _ (by decide), hs]
  have h2 := splitChars_cons_head (p := fun c => c == '.') (c := 'p') (by decide) h1
  have h3 := splitChars_cons_head (p := fun c => c == '.') (c := 'c') (by decide) h2
  have h4 := splitChars_cons_head (p := fun c => c == '.') (c := 'm') (by decide) h3
  show splitChars (fun c => c == '.') ('m' :: 'c' :: 'p' :: '.' :: r) = _
  rw [h4, hs]

theorem takeWhile_append_all {p : Char → Bool} {l : List Char} (r : List Char)
    (h : ∀ x ∈ l, p x = true) :
    (l ++ r).takeWhile p = l ++ r.takeWhile p :=
  List.takeWhile_append_of_pos h

theorem takeWhile_all {p : Char → Bool} {l : List Char} (h : ∀ x ∈ l, p x = true) :
    l.takeWhile p = l := by
  have := takeWhile_append_all (p := p) (l := l) [] h
  simpa using this

theorem takeWhile_append_stop {p : Char → Bool} {l : List Char} (r : List Char)
    (h : ∃ x ∈ l, p x = false) :
    (l ++ r).takeWhile p = l.takeWhile p := by
  induction l with
  | nil => obtain ⟨x, hx, _⟩ := h; cases hx
  | cons c cs ih =>
    cases hc : p c with
    | false => simp [List.takeWhile, hc]
    | true =>
      have h2 : ∃ x ∈ cs, p x = false := by
        obtain ⟨x, hx, hpx⟩ := h
        rcases List.mem_cons.mp hx with rfl | hmem
        · rw [hc] at hpx; cases hpx
        · exact ⟨x, hmem, hpx⟩
      simp [List.takeWhile, hc, ih h2]

theorem contains_append_char (l r : List Char) (c : Char) :
    (l ++ r).contains c = (l.contains c || r.contains c) := by
  cases h1 : l.contains c <;> cases h2 : (l ++ r).contains c <;>
    simp_all [List.contains, List.elem_eq_mem, List.mem_append]

theorem compareCore_replicate_left (b : List Int) :
    compareCore (List.replicate b.length 0) b = cmpZRight b := by
  induction b with
  | nil => rfl
  | cons y ys ih =>
    simp only [List.length_cons, List.replicate_succ, compareCore, cmpZRight]
    rw [ih]

theorem compareCore_replicate_right (a : List Int) :
    compareCore a (List.replicate a.length 0) = cmpZLeft a := by
  induction a with
  | nil => rfl
  | cons x xs ih =>
    simp only [List.length_cons, List.replicate_succ, compareCore, cmpZLeft]
    rw [ih]

theorem cmpZ_nil_right (l : List Int) : cmpZ l [] = cmpZLeft l := by
  cases l <;> rfl

theorem compareCore_pad_eq_cmpZ (a b : List Int) :
    compareCore (padZeros a (max a.length b.length)) (padZeros b (max a.length b.length)) =
      cmpZ a b := by
  induction a generalizing b with
  | nil =>
    simp only [padZeros, List.length_nil, Nat.zero_max, List.nil_append, Nat.sub_zero,
      Nat.sub_self, List.replicate_zero, List.append_nil]
    exact compareCore_replicate_left b
  | cons x xs ih =>
    cases b with
    | nil =>
      simp only [padZeros, List.length_nil, Nat.max_zero, List.nil_append, Nat.sub_zero,
        Nat.sub_self, List.replicate_zero, List.append_nil, List.length_cons,
        List.replicate_succ]
      simp only [compareCore, cmpZ]
      rw [compareCore_replicate_right]
    | cons y ys =>
      have hmax : max (x :: xs).length (y :: ys).length = max xs.length ys.length + 1 := by
        simp only [List.length_cons]
        exact Nat.succ_max_succ xs.length ys.length
      have hpada : padZeros (x :: xs) (max xs.length ys.length + 1) =
          x :: padZeros xs (max xs.length ys.length) := by
        simp [padZeros, Nat.succ_sub_succ]
      have hpadb : padZeros (y :: ys) (max xs.length ys.length + 1) =
          y :: padZeros ys (max xs.length ys.length) := by
        simp [padZeros, Nat.succ_sub_succ]
      rw [hmax, hpada, hpadb]
      simp only [compareCore, cmpZ]
      rw [ih ys]

theorem cmpZLeft_append_zero (l : List Int) : cmpZLeft (l ++ [0]) = cmpZLeft l := by
  induction l with
  | nil => decide
  | cons a as ih => simp only [List.cons_append, cmpZLeft, List.append_eq, ih]

theorem cmpZRight_append_zero (l : List Int) : cmpZRight (l ++ [0]) = cmpZRight l := by
  induction l with
  | nil => decide
  | cons a as ih => simp only [List.cons_append, cmpZRight, List.append_eq, ih]

theorem cmpZ_append_zero_left (a b : List Int) : cmpZ (a ++ [0]) b = cmpZ a b := by
  induction a generalizing b with
  | nil =>
    cases b with
    | nil => decide
    | cons y ys => simp only [List.nil_append, cmpZ, cmpZRight, cmpZLeft, cmpZ_nil_right]
  | cons x xs ih =>
    cases b with
    | nil =>
      simp only [List.cons_append, cmpZ, List.append_eq, cmpZLeft_append_zero]
    | cons y ys =>
      simp only [List.cons_append, cmpZ, List.append_eq, ih ys]

theorem cmpZ_append_zero_right (a b : List Int) : cmpZ a (b ++ [0]) = cmpZ a b := by
  induction a generalizing b with
  | nil => simp only [cmpZ, cmpZRight_append_zero]
  | cons x xs ih =>
    cases b with
    | nil =>
      have h0 : cmpZ (x :: xs) ([] ++ [0]) = cmpZ (x :: xs) [0] := rfl
      rw [h0, cmpZ_nil_right]
      show (if 0 < x then Ordering.gt else if x < 0 then Ordering.lt else cmpZ xs []) =
        cmpZLeft (x :: xs)
      rw [cmpZ_nil_right]
      rfl
    | cons y ys =>
      simp only [List.cons_append, cmpZ, List.append_eq, ih ys]

theorem cmpZ_self (l : List Int) : cmpZ l l = Ordering.eq := by
  induction l with
  | nil => rfl
  | cons a as ih => simp [cmpZ, ih, lt_irrefl]

/-- `isVersionSufficient` in canonical (unpadded) comparison form. -/
theorem isVersionSufficient_eq_cmpZ (i r : List Char) :
    isVersionSufficient i r =
      (match cmpZ (versionParts i) (versionParts r) with
       | Ordering.gt => true
       | Ordering.lt => false
       | Ordering.eq =>
         if !(i.contains '-') && r.contains '-' then true
         else if i.contains '-' && !(r.contains '-') then false
         else true) := by
  simp only [isVersionSufficient]
  rw [compareCore_pad_eq_cmpZ]

theorem contains_true_mem {l : List Char} {c : Char} (h : l.contains c = true) : c ∈ l := by
  simpa [List.contains, List.elem_eq_mem] using h

theorem contains_false_not_mem {l : List Char} {c : Char} (h : l.contains c = false) : c ∉ l := by
  simpa [List.contains, List.elem_eq_mem] using h

theorem cleanVersion_append_of_dash {i : List Char} (hd : i.contains '-' = true) :
    cleanVersion (i ++ ".0".data) = cleanVersion i := by
  unfold cleanVersion
  rw [takeWhile_append_stop _ ⟨'-', contains_true_mem hd, by decide⟩]

theorem cleanVersion_append_of_plus {i : List Char} (hd : i.contains '-' = false)
    (hp : i.contains '+' = true) :
    cleanVersion (i ++ ".0".data) = cleanVersion i := by
  have hnd : ∀ x ∈ i, (!(x == '-')) = true := by
    intro x hx
    have : x ≠ '-' := fun he => contains_false_not_mem hd (he ▸ hx)
    simp [this]
  unfold cleanVersion
  rw [takeWhile_append_all _ hnd, takeWhile_all hnd]
  have hd0 : (".0".data).takeWhile (fun c => !(c == '-')) = ".0".data := by decide
  rw [hd0, takeWhile_append_stop _ ⟨'+', contains_true_mem hp, by decide⟩]

theorem cleanVersion_append_of_clean {i : List Char} (hd : i.contains '-' = false)
    (hp : i.contains '+' = false) :
    cleanVersion (i ++ ".0".data) = cleanVersion i ++ ".0".data := by
  have hnd : ∀ x ∈ i, (!(x == '-')) = true := by
    intro x hx
    have : x ≠ '-' := fun he => contains_false_not_mem hd (he ▸ hx)
    simp [this]
  have hnp : ∀ x ∈ i, (!(x == '+')) = true := by
    intro x hx
    have : x ≠ '+' := fun he => contains_false_not_mem hp (he ▸ hx)
    simp [this]
  unfold cleanVersion
  rw [takeWhile_append_all _ hnd, takeWhile_all hnd]
  have hd0 : (".0".data).takeWhile (fun c => !(c == '-')) = ".0".data := by decide
  rw [hd0, takeWhile_append_all _ hnp, takeWhile_all hnp]
  have hp0 : (".0".data).takeWhile (fun c => !(c == '+')) = ".0".data := by decide
  rw [hp0]

theorem versionParts_append_dot0 (i : List Char) :
    versionParts (i ++ ".0".data) = versionParts i ∨
      versionParts (i ++ ".0".data) = versionParts i ++ [0] := by
  cases hd : i.contains '-' with
  | true =>
    left
    unfold versionParts
    rw [cleanVersion_append_of_dash hd]
  | false =>
    cases hp : i.contains '+' with
    | true =>
      left
      unfold versionParts
      rw [cleanVersion_append_of_plus hd hp]
    | false =>
      right
      unfold versionParts
      rw [cleanVersion_append_of_clean hd hp]
      show (splitChars (fun c => c == '.') (cleanVersion i ++ ['.', '0'])).map jsParseIntOr0 = _
      rw [splitChars_append_dot0, List.map_append]
      rfl

theorem contains_append_dot0 (i : List Char) (c : Char) (hc : (".0".data).contains c = false) :
    (i ++ ".0".data).contains c = i.contains c := by
  rw [contains_append_char, hc, Bool.or_false]

theorem isVersionSufficient_pad_left (i r : List Char) :
    isVersionSufficient (i ++ ".0".data) r = isVersionSufficient i r := by
  rw [isVersionSufficient_eq_cmpZ, isVersionSufficient_eq_cmpZ,
    contains_append_dot0 i '-' (by decide)]
  rcases versionParts_append_dot0 i with h | h
  · rw [h]
  · rw [h, cmpZ_append_zero_left]

theorem isVersionSufficient_pad_right (i r : List Char) :
    isVersionSufficient i (r ++ ".0".data) = isVersionSufficient i r := by
  rw [isVersionSufficient_eq_cmpZ, isVersionSufficient_eq_cmpZ,
    contains_append_dot0 r '-' (by decide)]
  rcases versionParts_append_dot0 r with h | h
  · rw [h]
  · rw [h, cmpZ_append_zero_right]


/- ## Claim theorems -/

/-- C3: `isVersionSufficient` returns true for ("1.2.3","1.2.3"),
("2.0.0","1.9.9"), ("1.0.0","1.0.0-alpha") and ("1.2","1.2.0"), false for
("1.2.2","1.2.3") and ("1.0.0-alpha","1.0.0"); and appending a further
`.0` segment to either version string never changes the result, i.e. the
shorter segment list is compared as if right-padded with zeros, so
differing segment counts (including 4+) compare identically. -/
theorem version_sufficient_c3 :
    isVersionSufficient "1.2.3".data "1.2.3".data = true
  ∧ isVersionSufficient "2.0.0".data "1.9.9".data = true
  ∧ isVersionSufficient "1.0.0".data "1.0.0-alpha".data = true
  ∧ isVersionSufficient "1.2".data "1.2.0".data = true
  ∧ isVersionSufficient "1.2.2".data "1.2.3".data = false
  ∧ isVersionSufficient "1.0.0-alpha".data "1.0.0".data = false
  ∧ (∀ i r : List Char, isVersionSufficient (i ++ ".0".data) r = isVersionSufficient i r)
  ∧ (∀ i r : List Char, isVersionSufficient i (r ++ ".0".data) = isVersionSufficient i r) :=
  ⟨by decide, by decide, by decide, by decide, by decide, by decide,
    isVersionSufficient_pad_left, isVersionSufficient_pad_right⟩

/-- C10: the pre-release tie-break of `isVersionSufficient` looks for a
`-` anywhere in the ORIGINAL version string, including inside build
metadata after `+`: whenever the cleaned core segments are equal, the
installed string contains a `-` and the required one does not, the result
is false; in particular `"1.0.0+build-1"` against `"1.0.0"` is rejected
even though its hyphen is inside build metadata (the cleaned core is
exactly `"1.0.0"`). -/
theorem prerelease_metadata_c10 :
    (∀ i r : List Char, versionParts i = versionParts r →
      i.contains '-' = true → r.contains '-' = false →
      isVersionSufficient i r = false)
  ∧ isVersionSufficient "1.0.0+build-1".data "1.0.0".data = false
  ∧ cleanVersion "1.0.0+build-1".data = "1.0.0".data := by
  refine ⟨?_, by decide, by decide⟩
  intro i r hparts hi hr
  rw [isVersionSufficient_eq_cmpZ, hparts, cmpZ_self, hi, hr]
  decide

theorem prerelease_metadata_c10_witness :
    versionParts "1.0.0+build-1".data = versionParts "1.0.0".data ∧
    isVersionSufficient "1.0.0+build-1".data "1.0.0".data = false :=
  ⟨by decide, prerelease_metadata_c10.1 "1.0.0+build-1".data "1.0.0".data
    (by decide) (by decide) (by decide)⟩

/-- C6: `addDefaultExtension` leaves a path unchanged exactly when it
already ends in one of the recognized suffixes `.prompt.md`, `.md`,
`.txt`, `.json`; otherwise it appends `.prompt.md` verbatim, even when an
unrecognized extension is present (`"name.xyz"` becomes
`"name.xyz.prompt.md"`). -/
theorem add_extension_c6 :
    (∀ path : List Char, (∃ ext ∈ recognizedExtensions, ext <:+ path) →
      addDefaultExtension path = path)
  ∧ (∀ path : List Char, (¬ ∃ ext ∈ recognizedExtensions, ext <:+ path) →
      addDefaultExtension path = path ++ ".prompt.md".data)
  ∧ addDefaultExtension "name.xyz".data = "name.xyz.prompt.md".data := by
  have hbridge : ∀ path : List Char,
      (recognizedExtensions.any (fun ext => List.isSuffixOf ext path)) = true ↔
        ∃ ext ∈ recognizedExtensions, ext <:+ path := by
    intro path
    simp [List.any_eq_true, List.isSuffixOf_iff_suffix]
  refine ⟨?_, ?_, by decide⟩
  · intro path h
    simp only [addDefaultExtension]
    rw [if_pos ((hbridge path).mpr h)]
  · intro path h
    simp only [addDefaultExtension]
    rw [if_neg (fun hx => h ((hbridge path).mp hx))]

theorem add_extension_c6_witness :
    (¬ ∃ ext ∈ recognizedExtensions, ext <:+ "name.xyz".data) ∧
    addDefaultExtension "name.xyz".data = "name.xyz.prompt.md".data :=
  ⟨by decide, add_extension_c6.2.1 "name.xyz".data (by decide)⟩

/-- C9: `addDefaultExtension` is idempotent on EVERY input: an input
already ending in a recognized suffix is returned unchanged, and
otherwise the output ends in `.prompt.md` (a recognized suffix), so a
second application changes nothing. -/
theorem add_extension_idem_c9 : ∀ path : List Char,
    addDefaultExtension (addDefaultExtension path) = addDefaultExtension path := by
  intro path
  cases h : recognizedExtensions.any (fun ext => List.isSuffixOf ext path) with
  | true => simp [addDefaultExtension, h]
  | false =>
    have hsfx : List.isSuffixOf ".prompt.md".data (path ++ ".prompt.md".data) = true :=
      List.isSuffixOf_iff_suffix.mpr (List.suffix_append _ _)
    have hany : recognizedExtensions.any
        (fun ext => List.isSuffixOf ext (path ++ ".prompt.md".data)) = true := by
      apply List.any_eq_true.mpr
      exact ⟨".prompt.md".data, by simp [recognizedExtensions], hsfx⟩
    simp [addDefaultExtension, h, hany]

/-- C4: an address beginning with the service prefix `mcp.` parses
successfully exactly when exactly two more dot-separated segments follow
the prefix, in which case the result is the mcp variant carrying the full
original string; `mcp.server.prompt` parses, while `mcp.onlyone` and
`mcp.a.b.c` fail with the malformed-address error. -/
theorem parse_service_c4 :
    (∀ r : List Char, (splitChars (fun c => c == '.') r).length = 2 →
      parsePrompt ("mcp.".data ++ r) = Except.ok (ParsedPrompt.mcp ("mcp.".data ++ r)))
  ∧ (∀ r : List Char, (splitChars (fun c => c == '.') r).length ≠ 2 →
      parsePrompt ("mcp.".data ++ r) =
        Except.error "Invalid MCP prompt format. Expected: mcp.ServerName.PromptName".data)
  ∧ parsePrompt "mcp.server.prompt".data =
      Except.ok (ParsedPrompt.mcp "mcp.server.prompt".data)
  ∧ parsePrompt "mcp.onlyone".data =
      Except.error "Invalid MCP prompt format. Expected: mcp.ServerName.PromptName".data
  ∧ parsePrompt "mcp.a.b.c".data =
      Except.error "Invalid MCP prompt format. Expected: mcp.ServerName.PromptName".data := by
  have hpre : ∀ r : List Char, List.isPrefixOf "mcp.".data ("mcp.".data ++ r) = true :=
    fun r => List.isPrefixOf_iff_prefix.mpr (List.prefix_append _ _)
  refine ⟨?_, ?_, by decide, by decide, by decide⟩
  · intro r h
    have hlen : (splitChars (fun c => c == '.') ("mcp.".data ++ r)).length = 3 := by
      rw [splitChars_mcp_dot, List.length_cons, h]
    have hlen2 : (splitChars (fun c => c == '.') ('m' :: 'c' :: 'p' :: '.' :: r)).length = 3 := hlen
    simp [parsePrompt, hpre r, hlen2]
  · intro r h
    have hlen : (splitChars (fun c => c == '.') ("mcp.".data ++ r)).length ≠ 3 := by
      rw [splitChars_mcp_dot, List.length_cons]
      omega
    have hlen2 : (splitChars (fun c => c == '.') ('m' :: 'c' :: 'p' :: '.' :: r)).length ≠ 3 := hlen
    simp [parsePrompt, hpre r, hlen2]

theorem parse_service_c4_witness :
    (splitChars (fun c => c == '.') "server.prompt".data).length = 2 ∧
    parsePrompt ("mcp.".data ++ "server.prompt".data) =
      Except.ok (ParsedPrompt.mcp ("mcp.".data ++ "server.prompt".data)) :=
  ⟨by decide, parse_service_c4.1 "server.prompt".data (by decide)⟩

theorem suffix_of_cons_of_ne {pat : List Char} {c : Char} {cs : List Char}
    (h : pat <:+ c :: cs) (hne : pat ≠ c :: cs) : pat <:+ cs := by
  obtain ⟨u, hu⟩ := h
  cases u with
  | nil => simp only [List.nil_append] at hu; exact absurd hu hne
  | cons d u2 =>
    refine ⟨u2, ?_⟩
    injection hu with _ h2

theorem countSub_pos_of_suffix {pat : List Char} (hne : pat ≠ []) :
    ∀ {s : List Char}, pat <:+ s → 1 ≤ countSub pat s := by
  intro s
  induction s with
  | nil => intro h; exact absurd (List.suffix_nil.mp h) hne
  | cons c cs ih =>
    intro h
    by_cases heq : pat = c :: cs
    · have hpref : pat.isPrefixOf (c :: cs) = true :=
        List.isPrefixOf_iff_prefix.mpr (heq ▸ List.prefix_refl pat)
      unfold countSub
      rw [if_pos hpref]
      omega
    · have h2 := suffix_of_cons_of_ne h heq
      have h3 := ih h2
      unfold countSub
      split <;> omega

theorem replaceFirst_single_suffix {pat : List Char} (hne : pat ≠ []) :
    ∀ {t : List Char}, countSub pat t = 1 → pat <:+ t →
      replaceFirst pat t = dropLastN t pat.length := by
  intro t
  induction t with
  | nil => intro _ hs; exact absurd (List.suffix_nil.mp hs) hne
  | cons c cs ih =>
    intro hc hs
    cases hp : pat.isPrefixOf (c :: cs) with
    | true =>
      have hcount : countSub pat cs = 0 := by
        unfold countSub at hc
        rw [if_pos hp] at hc
        omega
      by_cases heq : pat = c :: cs
      · simp [replaceFirst, hp, dropLastN, heq, List.drop_length]
      · have h2 := suffix_of_cons_of_ne hs heq
        have h3 := countSub_pos_of_suffix hne h2
        omega
    | false =>
      have hc2 : countSub pat cs = 1 := by
        unfold countSub at hc
        rw [if_neg (by simp [hp])] at hc
        omega
      have hne2 : pat ≠ c :: cs := by
        intro he
        rw [List.isPrefixOf_iff_prefix.mpr (he ▸ List.prefix_refl pat)] at hp
        cases hp
      have hsuf2 : pat <:+ cs := suffix_of_cons_of_ne hs hne2
      have hlen : pat.length ≤ cs.length := hsuf2.length_le
      have ihres := ih hc2 hsuf2
      simp only [replaceFirst, hp, Bool.false_eq_true, if_false, ihres, dropLastN,
        List.length_cons]
      have harith : cs.length + 1 - pat.length = (cs.length - pat.length) + 1 := by omega
      rw [harith, List.take_succ_cons]

/-- C5 counterexample: the claim says the compound suffix `.prompt.md` is
stripped from the END of the last segment, but the code removes the FIRST
occurrence; on `a.prompt.md.b.prompt.md` the two disagree. -/
theorem getPromptName_c5_counterexample :
    getPromptName "a.prompt.md.b.prompt.md".data = "a.b.prompt.md".data ∧
    getPromptNameSpec "a.prompt.md.b.prompt.md".data = "a.prompt.md.b".data ∧
    getPromptName "a.prompt.md.b.prompt.md".data ≠
      getPromptNameSpec "a.prompt.md.b.prompt.md".data :=
  ⟨by decide, by decide, by decide⟩

/-- C5 (amended): `getPromptName` splits the original address on `/`, `\`
and `:` and takes the last segment; when that segment ends with
`.prompt.md` it removes the FIRST occurrence of `.prompt.md` — which
coincides with stripping the trailing compound suffix whenever the suffix
occurs only once in the segment — and otherwise strips only the last
single extension; the three concrete examples of the claim hold. -/
theorem getPromptName_c5_amended :
    (∀ prompt : List Char,
      countSub ".prompt.md".data (lastSegment prompt) = 1 →
      List.isSuffixOf ".prompt.md".data (lastSegment prompt) = true →
      getPromptName prompt = dropLastN (lastSegment prompt) ".prompt.md".data.length)
  ∧ (∀ prompt : List Char,
      List.isSuffixOf ".prompt.md".data (lastSegment prompt) = false →
      getPromptName prompt = stripLastExt (lastSegment prompt))
  ∧ getPromptName "gh:owner/repo/path/to/my-prompt.md".data = "my-prompt".data
  ∧ getPromptName "a/b/c.prompt.md".data = "c".data
  ∧ getPromptName "simple-name".data = "simple-name".data := by
  refine ⟨?_, ?_, by decide, by decide, by decide⟩
  · intro prompt hcount hsfx
    show (if List.isSuffixOf ".prompt.md".data (lastSegment prompt) then
        replaceFirst ".prompt.md".data (lastSegment prompt)
      else stripLastExt (lastSegment prompt)) = _
    rw [if_pos hsfx]
    exact replaceFirst_single_suffix (by decide) hcount (List.isSuffixOf_iff_suffix.mp hsfx)
  · intro prompt hsfx
    show (if List.isSuffixOf ".prompt.md".data (lastSegment prompt) then
        replaceFirst ".prompt.md".data (lastSegment prompt)
      else stripLastExt (lastSegment prompt)) = _
    rw [if_neg (by simp [hsfx])]

theorem getPromptName_c5_amended_witness :
    countSub ".prompt.md".data (lastSegment "a/b/c.prompt.md".data) = 1 ∧
    getPromptName "a/b/c.prompt.md".data =
      dropLastN (lastSegment "a/b/c.prompt.md".data) ".prompt.md".data.length :=
  ⟨by decide, getPromptName_c5_amended.1 "a/b/c.prompt.md".data (by decide) (by decide)⟩

theorem tier1Result_error_of_http (isAdo : Bool) {env : RemoteFetchEnv} {e : List Char}
    (he : fetchViaHttp env.tier1 = Except.error e) :
    ∃ e2, tier1Result isAdo env = Except.error e2 := by
  unfold tier1Result
  cases haux : (if isAdo then env.adoAuth else Except.ok ()) with
  | error m => exact ⟨m, rfl⟩
  | ok u => exact ⟨e, he⟩

theorem tier1Result_ok_inv {isAdo : Bool} {env : RemoteFetchEnv} {c : List Char}
    (h : tier1Result isAdo env = Except.ok c) : fetchViaHttp env.tier1 = Except.ok c := by
  unfold tier1Result at h
  split at h
  · cases h
  · exact h

theorem fetchViaHttp_ok_not_signin {t : HttpAttempt} {body : List Char}
    (h : fetchViaHttp t = Except.ok body) : isSignInHtml body = false := by
  cases t with
  | failed msg => cases h
  | response ok status statusText rbody =>
    cases ok with
    | false => simp [fetchViaHttp] at h
    | true =>
      cases hs : isSignInHtml rbody with
      | true => simp [fetchViaHttp, hs] at h
      | false =>
        simp [fetchViaHttp, hs] at h
        rw [← h]
        exact hs

theorem fallback_error_of_tier1 {isAdo : Bool} {env : RemoteFetchEnv} {e : List Char}
    (h : tier1Result isAdo env = Except.error e) :
    fetchWithFallbackStrategy isAdo env =
      Except.map (fun c => (FetchTier.git, c)) env.tier2 := by
  unfold fetchWithFallbackStrategy
  rw [h]
  cases env.tier2 <;> rfl

theorem fallback_ok_inv {isAdo : Bool} {env : RemoteFetchEnv} {t : FetchTier}
    {body : List Char}
    (h : fetchWithFallbackStrategy isAdo env = Except.ok (t, body)) :
    (t = FetchTier.http ∧ fetchViaHttp env.tier1 = Except.ok body) ∨
    (t = FetchTier.git ∧ env.tier2 = Except.ok body) := by
  unfold fetchWithFallbackStrategy at h
  split at h
  case _ content heq =>
    injection h with hp
    injection hp with h1 h2
    left
    exact ⟨h1.symm, h2 ▸ tier1Result_ok_inv heq⟩
  case _ e heq =>
    split at h
    case _ c heq2 =>
      injection h with hp
      injection hp with h1 h2
      right
      exact ⟨h1.symm, h2 ▸ heq2⟩
    case _ e2 heq2 => cases h

/-- C1: for every remote-repo retrieval (GitHub or ADO), whenever tier 1
fails — the raw-URL fetch rejects, returns a non-ok status, or its body is
detected as an HTML sign-in page — the engine falls through to the
git-clone tier and the final result is exactly the clone tier's result;
a sign-in body makes `fetchViaHttp` fail rather than return the body, and
a success reported from the HTTP tier never carries a body detected as
sign-in HTML (only a git-tier success carries clone content). -/
theorem retrieval_fallback_c1 :
    ∀ (isAdo : Bool) (env : RemoteFetchEnv),
      ((∃ e, fetchViaHttp env.tier1 = Except.error e) →
        fetchWithFallbackStrategy isAdo env =
          Except.map (fun c => (FetchTier.git, c)) env.tier2)
    ∧ (∀ ok status statusText body,
        env.tier1 = HttpAttempt.response ok status statusText body →
        isSignInHtml body = true →
        ∃ e, fetchViaHttp env.tier1 = Except.error e)
    ∧ (∀ msg, env.tier1 = HttpAttempt.failed msg →
        ∃ e, fetchViaHttp env.tier1 = Except.error e)
    ∧ (∀ body, fetchWithFallbackStrategy isAdo env = Except.ok (FetchTier.http, body) →
        isSignInHtml body = false)
    ∧ (∀ body, fetchWithFallbackStrategy isAdo env = Except.ok (FetchTier.git, body) →
        env.tier2 = Except.ok body) := by
  intro isAdo env
  refine ⟨?_, ?_, ?_, ?_, ?_⟩
  · rintro ⟨e, he⟩
    obtain ⟨e2, he2⟩ := tier1Result_error_of_http isAdo he
    exact fallback_error_of_tier1 he2
  · intro ok status statusText body ht hsign
    rw [ht]
    cases ok with
    | false => exact ⟨_, rfl⟩
    | true =>
      refine ⟨"Authentication failed - received sign-in page".data, ?_⟩
      simp [fetchViaHttp, hsign]
  · intro msg ht
    rw [ht]
    exact ⟨msg, rfl⟩
  · intro body hok
    rcases fallback_ok_inv hok with ⟨_, hf⟩ | ⟨ht, _⟩
    · exact fetchViaHttp_ok_not_signin hf
    · cases ht
  · intro body hok
    rcases fallback_ok_inv hok with ⟨ht, _⟩ | ⟨_, h2⟩
    · cases ht
    · exact h2

theorem retrieval_fallback_c1_witness :
    (∃ e, fetchViaHttp cEnvHtml.tier1 = Except.error e) ∧
    fetchWithFallbackStrategy false cEnvHtml =
      Except.map (fun c => (FetchTier.git, c)) cEnvHtml.tier2 :=
  ⟨⟨"Authentication failed - received sign-in page".data, by decide⟩,
    (retrieval_fallback_c1 false cEnvHtml).1
      ⟨"Authentication failed - received sign-in page".data, by decide⟩⟩

theorem stepInstall_cancelled_only_on_decline :
    ∀ (server : McpServerConfig) (env : StepEnv) (config : McpConfiguration)
      (r : InstallResult) (config1 : McpConfiguration),
      installStep server env config = Except.ok (r, config1) →
      r.cancelled = true → env.confirm = false := by
  intro server env config r config1 h hc
  cases he : env.confirm with
  | false => rfl
  | true =>
    exfalso
    unfold installStep installNuGetForServer installServerConfig at h
    rw [he] at h
    repeat' split at h
    all_goals (try (injection h with hp; injection hp with h1 h2; subst h1))
    all_goals (try simp_all)
    all_goals (split at h <;> try (injection h with hp; injection hp with h1 h2; subst h1))
    all_goals simp_all

theorem installServersGo_cons_error {server : McpServerConfig} {env : StepEnv}
    {rest : List (McpServerConfig × StepEnv)} {config : McpConfiguration}
    {needs : Bool} {msg : List Char}
    (hstep : installStep server env config = Except.error msg) :
    installServersGo ((server, env) :: rest) config needs =
      { status := BatchStatus.failed, processed := [server],
        remaining := rest.map Prod.fst, written := none, results := [] } := by
  conv_lhs => unfold installServersGo
  rw [hstep]

theorem installServersGo_cons_ok {server : McpServerConfig} {env : StepEnv}
    {rest : List (McpServerConfig × StepEnv)} {config : McpConfiguration}
    {needs : Bool} {r : InstallResult} {config1 : McpConfiguration}
    (hstep : installStep server env config = Except.ok (r, config1)) :
    installServersGo ((server, env) :: rest) config needs =
      (if r.cancelled = true then
        { status := BatchStatus.cancelled, processed := [server],
          remaining := rest.map Prod.fst, written := none, results := [r] }
      else
        { status := (installServersGo rest config1 (needs || r.configModified)).status
          processed := server :: (installServersGo rest config1 (needs || r.configModified)).processed
          remaining := (installServersGo rest config1 (needs || r.configModified)).remaining
          written := (installServersGo rest config1 (needs || r.configModified)).written
          results := r :: (installServersGo rest config1 (needs || r.configModified)).results }) := by
  conv_lhs => unfold installServersGo
  rw [hstep]

theorem installServersGo_cancelled :
    ∀ (batch : List (McpServerConfig × StepEnv)) (config : McpConfiguration)
      (needsConfigWrite : Bool),
      (installServersGo batch config needsConfigWrite).status = BatchStatus.cancelled →
      (installServersGo batch config needsConfigWrite).written = none ∧
      (installServersGo batch config needsConfigWrite).processed ++
        (installServersGo batch config needsConfigWrite).remaining = batch.map Prod.fst := by
  intro batch
  induction batch with
  | nil =>
    intro config needs h
    simp [installServersGo] at h
  | cons pair rest ih =>
    intro config needs h
    obtain ⟨server, env⟩ := pair
    cases hstep : installStep server env config with
    | error msg =>
      rw [installServersGo_cons_error hstep] at h
      simp at h
    | ok rc =>
      obtain ⟨r, config1⟩ := rc
      rw [installServersGo_cons_ok hstep] at h ⊢
      cases hr : r.cancelled with
      | true =>
        rw [hr] at h
        simp
      | false =>
        rw [hr] at h
        simp only [Bool.false_eq_true, if_false] at h ⊢
        have h2 := ih config1 (needs || r.configModified) h
        refine ⟨h2.1, ?_⟩
        simp only [List.map_cons, List.cons_append]
        rw [h2.2]

theorem installServersGo_write :
    ∀ (batch : List (McpServerConfig × StepEnv)) (config : McpConfiguration)
      (needsConfigWrite : Bool),
      (installServersGo batch config needsConfigWrite).status = BatchStatus.completed →
      (installServersGo batch config needsConfigWrite).written.isSome =
        (needsConfigWrite ||
          (installServersGo batch config needsConfigWrite).results.any
            (fun r => r.configModified)) := by
  intro batch
  induction batch with
  | nil =>
    intro config needs h
    cases needs <;> simp [installServersGo]
  | cons pair rest ih =>
    intro config needs h
    obtain ⟨server, env⟩ := pair
    cases hstep : installStep server env config with
    | error msg =>
      rw [installServersGo_cons_error hstep] at h
      simp at h
    | ok rc =>
      obtain ⟨r, config1⟩ := rc
      rw [installServersGo_cons_ok hstep] at h ⊢
      cases hr : r.cancelled with
      | true =>
        rw [hr] at h
        simp at h
      | false =>
        rw [hr] at h
        simp only [Bool.false_eq_true, if_false] at h ⊢
        have h2 := ih config1 (needs || r.configModified) h
        simp only [List.any_cons] at h2 ⊢
        rw [h2, Bool.or_assoc]

/-- C2: if the user declines the installation confirmation for some
descriptor of a provisioning batch, the whole batch is cancelled: the
registry write never happens, the on-disk registry is exactly what it was
before the batch, and the descriptors after the declined one are left
unprocessed (the processed ones followed by the untouched remainder make
up the original batch); moreover a step can only report `cancelled` when
its confirmation was answered with a decline. -/
theorem provisioning_cancel_c2 :
    (∀ (batch : List (McpServerConfig × StepEnv)) (diskConfig : Option McpConfiguration),
      (installServers batch diskConfig).status = BatchStatus.cancelled →
        (installServers batch diskConfig).written = none
      ∧ diskAfterBatch diskConfig batch = diskConfig
      ∧ (installServers batch diskConfig).processed ++
          (installServers batch diskConfig).remaining = batch.map Prod.fst)
  ∧ (∀ (server : McpServerConfig) (env : StepEnv) (config : McpConfiguration)
       (r : InstallResult) (config1 : McpConfiguration),
      installStep server env config = Except.ok (r, config1) →
      r.cancelled = true → env.confirm = false) := by
  constructor
  · intro batch disk h
    have h2 := installServersGo_cancelled batch (disk.getD { servers := [], inputs := [] }) false h
    refine ⟨h2.1, ?_, h2.2⟩
    unfold diskAfterBatch
    rw [show (installServers batch disk).written = none from h2.1]
  · exact stepInstall_cancelled_only_on_decline

theorem provisioning_cancel_c2_witness :
    (installServers cBatchDecline none).status = BatchStatus.cancelled ∧
    ((installServers cBatchDecline none).written = none
     ∧ diskAfterBatch none cBatchDecline = none
     ∧ (installServers cBatchDecline none).processed ++
         (installServers cBatchDecline none).remaining = cBatchDecline.map Prod.fst) :=
  ⟨by decide, provisioning_cancel_c2.1 cBatchDecline none (by decide)⟩

/-- C7: a provisioning batch that completes without cancellation performs
the registry write at most once (the outcome carries at most one written
config, produced after the loop), and a write happens exactly when at
least one descriptor's step reported that it modified the in-memory
config — in particular a batch in which every descriptor was skipped
performs no write at all. -/
theorem provisioning_write_once_c7 :
    ∀ (batch : List (McpServerConfig × StepEnv)) (diskConfig : Option McpConfiguration),
      (installServers batch diskConfig).status = BatchStatus.completed →
      ((installServers batch diskConfig).written.isSome = true ↔
        ∃ r ∈ (installServers batch diskConfig).results, r.configModified = true) := by
  intro batch disk h
  have h2 := installServersGo_write batch (disk.getD { servers := [], inputs := [] }) false h
  rw [show (installServers batch disk).written.isSome =
    (false || (installServers batch disk).results.any (fun r => r.configModified)) from h2]
  simp [List.any_eq_true]

theorem provisioning_write_once_c7_witness :
    (installServers cBatchSkip (some cDiskWithA)).status = BatchStatus.completed ∧
    ((installServers cBatchSkip (some cDiskWithA)).written.isSome = true ↔
      ∃ r ∈ (installServers cBatchSkip (some cDiskWithA)).results,
        r.configModified = true) :=
  ⟨by decide, provisioning_write_once_c7 cBatchSkip (some cDiskWithA) (by decide)⟩

theorem getPromptModel_session_shape (name input : List Char)
    (servers : List McpServerConfig) (env : SessionEnv) :
    (getPromptModel name input servers env).sessionOpened = false ∨
    ((getPromptModel name input servers env).sessionOpened = true ∧
     (getPromptModel name input servers env).closeCalled = true ∧
     (getPromptModel name input servers env).closeErrorLogged =
       (match env.closeResult with
        | Except.error _ => true
        | Except.ok _ => false)) := by
  rcases hp : splitChars (fun c => c == '.') name with _ | ⟨p0, _ | ⟨p1, _ | ⟨p2, _ | ⟨p3, ps⟩⟩⟩⟩
  all_goals simp only [getPromptModel, hp]
  all_goals repeat' split
  all_goals simp

theorem getPromptModel_result_independent (name input : List Char)
    (servers : List McpServerConfig) (ij : ParsedJson)
    (cn : Except (List Char) Unit) (rd : Except (List Char) GetPromptResponse)
    (c1 c2 : Except (List Char) Unit) :
    (getPromptModel name input servers
      { inputJson := ij, connect := cn, render := rd, closeResult := c1 }).result =
    (getPromptModel name input servers
      { inputJson := ij, connect := cn, render := rd, closeResult := c2 }).result := by
  rcases hp : splitChars (fun c => c == '.') name with _ | ⟨p0, _ | ⟨p1, _ | ⟨p2, _ | ⟨p3, ps⟩⟩⟩⟩
  all_goals simp only [getPromptModel, hp]
  all_goals repeat' split
  all_goals simp_all

/-- C8: whenever `getPrompt` successfully opens a client session, the
session close is invoked on every exit path before the call returns or
raises (the outcome always records the close), the render result — text
or error — never depends on the outcome of the close, and an error thrown
by close itself is logged rather than propagated. -/
theorem session_teardown_c8 :
    ∀ (mcpPromptName input : List Char) (mcpServers : List McpServerConfig)
      (env : SessionEnv),
      ((getPromptModel mcpPromptName input mcpServers env).sessionOpened = true →
        (getPromptModel mcpPromptName input mcpServers env).closeCalled = true)
    ∧ (∀ c1 c2 : Except (List Char) Unit,
        (getPromptModel mcpPromptName input mcpServers
          { env with closeResult := c1 }).result =
        (getPromptModel mcpPromptName input mcpServers
          { env with closeResult := c2 }).result)
    ∧ ((getPromptModel mcpPromptName input mcpServers env).sessionOpened = true →
        ∀ msg, env.closeResult = Except.error msg →
          (getPromptModel mcpPromptName input mcpServers env).closeErrorLogged = true) := by
  intro name input servers env
  refine ⟨?_, ?_, ?_⟩
  · intro h
    rcases getPromptModel_session_shape name input servers env with hs | ⟨_, hc, _⟩
    · rw [h] at hs; cases hs
    · exact hc
  · intro c1 c2
    obtain ⟨ij, cn, rd, cr⟩ := env
    exact getPromptModel_result_independent name input servers ij cn rd c1 c2
  · intro h msg hclose
    rcases getPromptModel_session_shape name input servers env with hs | ⟨_, _, hl⟩
    · rw [h] at hs; cases hs
    · rw [hl, hclose]

theorem session_teardown_c8_witness :
    (getPromptModel "mcp.alpha.greet".data "".data [cDescA] cSessionEnv).sessionOpened
      = true ∧
    (getPromptModel "mcp.alpha.greet".data "".data [cDescA] cSessionEnv).closeCalled
      = true :=
  ⟨by decide,
    (session_teardown_c8 "mcp.alpha.greet".data "".data [cDescA] cSessionEnv).1 (by decide)⟩
